import Mathlib

/-!
Formalization of the trigram language model in
`ml-assignment/src/ngram_model.py` (`class TrigramModel`): tokenization,
sentence splitting, training (`fit`), weighted sampling
(`_sample_from_counter`), backoff (`_backoff_sample`) and generation
(`generate`).

Modelling choices:
* `collections.Counter` and `defaultdict(Counter)` become insertion-ordered
  association lists with lookup-or-zero semantics; `c[k] += 1` updates the
  first entry with key `k` in place or appends `(k, 1)` at the end, exactly
  like Python dict insertion order.
* The per-instance pseudo-random source `self._random` is abstracted as a
  stream `g : Nat → Nat` of raw draws; `random.choices(words, weights)` is
  the cumulative-weight selection of `pickWeighted` applied to the draw
  reduced modulo the total weight.
* A Python exception is modelled as `none`; in particular
  `_sample_from_counter` on an empty counter raises `ValueError`
  (unpacking `zip()` of no items), which is `none` here.
-/

namespace NGram

/-- Word and sentinel tokens are strings, as in the Python source. -/
abbrev Token := String

/-- `SENT_START = "<s>"` from the source. -/
def SENT_START : Token := "<s>"

/-- `SENT_END = "</s>"` from the source. -/
def SENT_END : Token := "</s>"

/-- A `collections.Counter` as an insertion-ordered association list. -/
abbrev Counter (K : Type) := List (K × Nat)

/-- The nested `defaultdict(Counter)` (`self.counts`) holding
`(w1, w2) -> Counter(next_word)`. -/
abbrev TriCounts := List ((Token × Token) × Counter Token)

/-- `counter[k] += 1`: bump the first entry with key `k`, else append `(k, 1)`. -/
def incr {K : Type} [DecidableEq K] : Counter K → K → Counter K
  | [], k => [(k, 1)]
  | (k0, n) :: rest, k =>
    if k0 = k then (k0, n + 1) :: rest else (k0, n) :: incr rest k

/-- `counter[k] += n`, as performed entrywise by `Counter.update`. -/
def addCount {K : Type} [DecidableEq K] : Counter K → K → Nat → Counter K
  | [], k, n => [(k, n)]
  | (k0, m) :: rest, k, n =>
    if k0 = k then (k0, m + n) :: rest else (k0, m) :: addCount rest k n

/-- `a.update(b)` for Counters: add every entry of `b` into `a`. -/
def counterUpdate {K : Type} [DecidableEq K] (a b : Counter K) : Counter K :=
  List.foldl (fun acc p => addCount acc p.1 p.2) a b

/-- Dictionary lookup with the Counter default of `0` for missing keys. -/
def lookupD {K : Type} [DecidableEq K] : Counter K → K → Nat
  | [], _ => 0
  | (k0, n) :: rest, k => if k0 = k then n else lookupD rest k

/-- `context in self.counts` / `self.counts[context]`: find the counter
stored under a trigram context, if present. -/
def lookupCtx : TriCounts → (Token × Token) → Option (Counter Token)
  | [], _ => none
  | (ctx0, ctr) :: rest, ctx =>
    if ctx0 = ctx then some ctr else lookupCtx rest ctx

/-- `self.counts[context][next_word] += 1` on the nested table. -/
def incrNested : TriCounts → (Token × Token) → Token → TriCounts
  | [], ctx, w => [(ctx, [(w, 1)])]
  | (ctx0, ctr) :: rest, ctx, w =>
    if ctx0 = ctx then (ctx0, incr ctr w) :: rest
    else (ctx0, ctr) :: incrNested rest ctx w

/-- Sum of all counts stored in a counter (`sum(counter.values())`). -/
def sumValues {K : Type} (c : Counter K) : Nat :=
  (c.map (fun p => p.2)).sum

/-- Total weight carried by key `k`, summed over every entry with that key
(coincides with `lookupD` on duplicate-free counters). -/
def keyWeight {K : Type} [DecidableEq K] (c : Counter K) (k : K) : Nat :=
  (c.map (fun p => if p.1 = k then p.2 else 0)).sum

/-- Total weight the nested table assigns to next-token `t` over all
contexts whose second component is `w2`. -/
def ctxWeight (counts : TriCounts) (w2 t : Token) : Nat :=
  (counts.map (fun e => if e.1.2 = w2 then keyWeight e.2 t else 0)).sum

/-- Trigram count of `(ctx, t)` with the missing-key default of `0`. -/
def lookupTri (c : TriCounts) (ctx : Token × Token) (t : Token) : Nat :=
  match lookupCtx c ctx with
  | some ctr => lookupD ctr t
  | none => 0

/-- Cumulative-weight selection: walk the entries, subtracting weights from
the draw until it falls inside an entry.  This is the selection performed by
`random.choices(words, weights=weights, k=1)[0]`. -/
def pickWeighted {K : Type} : List (K × Nat) → Nat → Option K
  | [], _ => none
  | (k, w) :: rest, r => if r < w then some k else pickWeighted rest (r - w)

/-- `_sample_from_counter(counter)`: draw a key proportionally to its count.
The raw draw `r` is reduced modulo the total weight.  On an empty counter the
Python code raises (`words, weights = zip(*counter.items())` unpacks zero
items), modelled as `none`; likewise an all-zero-weight counter raises inside
`random.choices`, and here no entry can absorb the draw, giving `none`. -/
def sampleFromCounter {K : Type} [DecidableEq K] (c : Counter K) (r : Nat) : Option K :=
  pickWeighted c (r % sumValues c)

/-- The aggregation inside `_backoff_sample`:
`agg = Counter(); for (c1, c2), ctr in self.counts.items(): if c2 == w2: agg.update(ctr)`. -/
def aggFor (counts : TriCounts) (w2 : Token) : Counter Token :=
  List.foldl (fun agg e => if e.1.2 = w2 then counterUpdate agg e.2 else agg) [] counts

/-- `self.counts`, `self.bigram_counts`, `self.unigram_counts` of a
`TrigramModel` instance (the tables set up in `__init__`). -/
structure TrigramModel where
  counts : TriCounts
  bigram_counts : Counter (Token × Token)
  unigram_counts : Counter Token

/-- The freshly constructed model: all three tables empty (`__init__`). -/
def initModel : TrigramModel :=
  { counts := [], bigram_counts := [], unigram_counts := [] }

/-- The bigram- and unigram-level tail of `_backoff_sample`, reached when the
trigram lookup fails its guard: try the aggregate for `w2`, then the unigram
counts, then return `SENT_END` deterministically. -/
def backoffRest (m : TrigramModel) (context : Token × Token) (r : Nat) : Option Token :=
  let agg := aggFor m.counts context.2
  if agg ≠ [] then sampleFromCounter agg r
  else if m.unigram_counts ≠ [] then sampleFromCounter m.unigram_counts r
  else some SENT_END

/-- `_backoff_sample(context)`: trigram level first, guarded by
`context in self.counts and len(self.counts[context]) > 0`, then the
bigram/unigram tail. -/
def backoffSample (m : TrigramModel) (context : Token × Token) (r : Nat) : Option Token :=
  match lookupCtx m.counts context with
  | some ctr =>
    if 0 < ctr.length then sampleFromCounter ctr r else backoffRest m context r
  | none => backoffRest m context r

/-- A character matched by `[A-Za-z0-9']` (codes 65-90, 97-122, 48-57, 39). -/
def isWordChar (c : Char) : Bool :=
  (decide (65 ≤ c.toNat) && decide (c.toNat ≤ 90)) ||
  (decide (97 ≤ c.toNat) && decide (c.toNat ≤ 122)) ||
  (decide (48 ≤ c.toNat) && decide (c.toNat ≤ 57)) ||
  decide (c.toNat = 39)

/-- A sentence-terminator character from `[.!?]` (codes 46, 33, 63). -/
def isTermChar (c : Char) : Bool :=
  decide (c.toNat = 46) || decide (c.toNat = 33) || decide (c.toNat = 63)

/-- Emit the pending word run (accumulated in reverse), if any. -/
def flushRun (acc : List Token) (run : List Char) : List Token :=
  if run = [] then acc else acc ++ [String.mk run.reverse]

/-- Left-to-right maximal-munch scan implementing
`_TOKEN_RE.findall`: word characters extend the current run, a terminator
becomes its own one-character token, anything else is a separator. -/
def tokenizeAux : List Token → List Char → List Char → List Token
  | acc, run, [] => flushRun acc run
  | acc, run, c :: cs =>
    if isWordChar c then tokenizeAux acc (c :: run) cs
    else if isTermChar c then tokenizeAux (flushRun acc run ++ [String.mk [c]]) [] cs
    else tokenizeAux (flushRun acc run) [] cs

/-- `_tokenize(text)`: lowercase, then regex token scan. -/
def tokenize (text : String) : List Token :=
  tokenizeAux [] [] (text.toList.map Char.toLower)

/-- A token equal to `"."`, `"!"` or `"?"`. -/
def isTermTok (t : Token) : Bool :=
  decide (t = ".") || decide (t = "!") || decide (t = "?")

/-- The loop of `_split_sentences`: append each token to the current
sentence; on a terminator emit the accumulated tokens with all punctuation
tokens filtered out and reset; leftover tokens form one final sentence. -/
def splitAux : List (List Token) → List Token → List Token → List (List Token)
  | acc, cur, [] =>
    if cur = [] then acc
    else acc ++ [List.filter (fun tok => !(isTermTok tok)) cur]
  | acc, cur, t :: ts =>
    if isTermTok t then
      splitAux (acc ++ [List.filter (fun tok => !(isTermTok tok)) (cur ++ [t])]) [] ts
    else splitAux acc (cur ++ [t]) ts

/-- `_split_sentences(tokens)`. -/
def splitSentences (tokens : List Token) : List (List Token) :=
  splitAux [] [] tokens

/-- `[SENT_START, SENT_START] + sent + [SENT_END]`. -/
def padSentence (sent : List Token) : List Token :=
  [SENT_START, SENT_START] ++ sent ++ [SENT_END]

/-- The trigram loop of `fit`:
`for i in range(len(padded) - 2)` increment `counts[(p[i], p[i+1])][p[i+2]]`
and `bigram_counts[(p[i+1], p[i+2])]`, expressed as a sliding window. -/
def trigramStep : List Token → TriCounts → Counter (Token × Token) → TriCounts × Counter (Token × Token)
  | w1 :: w2 :: w3 :: rest, c, b =>
    trigramStep (w2 :: w3 :: rest) (incrNested c (w1, w2) w3) (incr b (w2, w3))
  | _, c, b => (c, b)

/-- The body of `fit`'s sentence loop: skip empty sentences; otherwise pad,
count every non-start token into the unigram table, and run the trigram
loop. -/
def processSentence (m : TrigramModel) (sent : List Token) : TrigramModel :=
  if sent = [] then m
  else
    let padded := padSentence sent
    let uni := List.foldl (fun u w => if w = SENT_START then u else incr u w) m.unigram_counts padded
    let cb := trigramStep padded m.counts m.bigram_counts
    { counts := cb.1, bigram_counts := cb.2, unigram_counts := uni }

/-- `fit(text)`: tokenize, split into sentences, clear all three tables
(so the result is independent of the previous state), then process every
sentence. -/
def fit (text : String) (_m : TrigramModel) : TrigramModel :=
  let tokens := tokenize text
  let sentences := splitSentences tokens
  List.foldl processSentence initModel sentences

/-- The generation loop of `generate`: up to `fuel` iterations, each drawing
one token via `_backoff_sample`; stop on `SENT_END` without appending it.
Returns the produced tokens together with the number of sampling steps
performed (`none` if a sampling step raised). -/
def generateAux (m : TrigramModel) (g : Nat → Nat) : Token × Token → Nat → Nat → Option (List Token × Nat)
  | _, _, 0 => some ([], 0)
  | (w1, w2), i, fuel + 1 =>
    match backoffSample m (w1, w2) (g i) with
    | none => none
    | some w =>
      if w = SENT_END then some ([], 1)
      else
        match generateAux m g (w2, w) (i + 1) fuel with
        | none => none
        | some (toks, steps) => some (w :: toks, steps + 1)

/-- `text[0].upper() + text[1:]` on a non-empty string. -/
def capitalizeFirst (s : String) : String :=
  match s.toList with
  | [] => s
  | c :: cs => String.mk (Char.toUpper c :: cs)

/-- `generate(max_length)` (Python default `max_length=50`): run the
generation loop from context `(SENT_START, SENT_START)`; an empty output
yields `""`, otherwise the tokens are joined with single spaces and the
first character is capitalized.  `Int.toNat` models `range(max_length)`
being empty for `max_length <= 0`. -/
def generate (m : TrigramModel) (g : Nat → Nat) (maxLength : Int) : Option String :=
  match generateAux m g (SENT_START, SENT_START) 0 maxLength.toNat with
  | none => none
  | some (toks, _) =>
    if toks = [] then some ("")
    else some (capitalizeFirst (String.intercalate (" ") toks))

/-- Number of tokens of a padded sentence other than the start marker. -/
def nonStartCount : List Token → Nat
  | [] => 0
  | w :: ws => (if w = SENT_START then 0 else 1) + nonStartCount ws

/-- Unfolding `sumValues` on a cons cell. -/
theorem sumValues_cons {K : Type} (k1 : K) (n : Nat) (rest : Counter K) :
    sumValues ((k1, n) :: rest) = n + sumValues rest := by
  simp [sumValues]

/-- Unfolding `keyWeight` on a cons cell. -/
theorem keyWeight_cons {K : Type} [DecidableEq K] (k1 : K) (n : Nat) (rest : Counter K) (k : K) :
    keyWeight ((k1, n) :: rest) k = (if k1 = k then n else 0) + keyWeight rest k := by
  simp [keyWeight]

/-- Unfolding `ctxWeight` on a cons cell. -/
theorem ctxWeight_cons (e : (Token × Token) × Counter Token) (rest : TriCounts) (w2 t : Token) :
    ctxWeight (e :: rest) w2 t =
      (if e.1.2 = w2 then keyWeight e.2 t else 0) + ctxWeight rest w2 t := by
  simp [ctxWeight]

/-- `incr` adds exactly one to the looked-up count of its key. -/
theorem lookupD_incr {K : Type} [DecidableEq K] (c : Counter K) (k k0 : K) :
    lookupD (incr c k) k0 = lookupD c k0 + (if k = k0 then 1 else 0) := by
  induction c with
  | nil =>
    by_cases h : k = k0 <;> simp [incr, lookupD, h]
  | cons p rest ih =>
    obtain ⟨k1, n⟩ := p
    by_cases h1 : k1 = k
    · subst h1
      rw [show incr ((k1, n) :: rest) k1 = (k1, n + 1) :: rest by simp [incr]]
      by_cases h2 : k1 = k0 <;> simp [lookupD, h2]
    · rw [show incr ((k1, n) :: rest) k = (k1, n) :: incr rest k by simp [incr, h1]]
      by_cases h2 : k1 = k0
      · subst h2
        have hk : ¬ k = k1 := fun hk => h1 hk.symm
        simp [lookupD, hk]
      · simp [lookupD, h2, ih]

/-- `incr` grows the total count by exactly one. -/
theorem sumValues_incr {K : Type} [DecidableEq K] (c : Counter K) (k : K) :
    sumValues (incr c k) = sumValues c + 1 := by
  induction c with
  | nil => simp [incr, sumValues]
  | cons p rest ih =>
    obtain ⟨k1, n⟩ := p
    by_cases h1 : k1 = k
    · subst h1
      rw [show incr ((k1, n) :: rest) k1 = (k1, n + 1) :: rest by simp [incr]]
      rw [sumValues_cons, sumValues_cons]
      omega
    · rw [show incr ((k1, n) :: rest) k = (k1, n) :: incr rest k by simp [incr, h1]]
      rw [sumValues_cons, sumValues_cons, ih]
      omega

/-- `addCount` adds exactly `n` to the looked-up count of its key. -/
theorem lookupD_addCount {K : Type} [DecidableEq K] (c : Counter K) (k k0 : K) (n : Nat) :
    lookupD (addCount c k n) k0 = lookupD c k0 + (if k = k0 then n else 0) := by
  induction c with
  | nil =>
    by_cases h : k = k0 <;> simp [addCount, lookupD, h]
  | cons p rest ih =>
    obtain ⟨k1, m⟩ := p
    by_cases h1 : k1 = k
    · subst h1
      rw [show addCount ((k1, m) :: rest) k1 n = (k1, m + n) :: rest by simp [addCount]]
      by_cases h2 : k1 = k0 <;> simp [lookupD, h2]
    · rw [show addCount ((k1, m) :: rest) k n = (k1, m) :: addCount rest k n by
        simp [addCount, h1]]
      by_cases h2 : k1 = k0
      · subst h2
        have hk : ¬ k = k1 := fun hk => h1 hk.symm
        simp [lookupD, hk]
      · simp [lookupD, h2, ih]

/-- `incr` adds exactly one to the total weight of its key. -/
theorem keyWeight_incr {K : Type} [DecidableEq K] (c : Counter K) (k k0 : K) :
    keyWeight (incr c k) k0 = keyWeight c k0 + (if k = k0 then 1 else 0) := by
  induction c with
  | nil =>
    by_cases h : k = k0 <;> simp [incr, keyWeight, h]
  | cons p rest ih =>
    obtain ⟨k1, n⟩ := p
    by_cases h1 : k1 = k
    · subst h1
      rw [show incr ((k1, n) :: rest) k1 = (k1, n + 1) :: rest by simp [incr]]
      rw [keyWeight_cons, keyWeight_cons]
      by_cases h2 : k1 = k0 <;> simp [h2] <;> omega
    · rw [show incr ((k1, n) :: rest) k = (k1, n) :: incr rest k by simp [incr, h1]]
      rw [keyWeight_cons, keyWeight_cons, ih]
      omega

/-- The looked-up count never exceeds the total weight of the key. -/
theorem lookupD_le_keyWeight {K : Type} [DecidableEq K] (c : Counter K) (k : K) :
    lookupD c k ≤ keyWeight c k := by
  induction c with
  | nil => simp [lookupD, keyWeight]
  | cons p rest ih =>
    obtain ⟨k1, n⟩ := p
    rw [keyWeight_cons]
    by_cases h1 : k1 = k <;> simp [lookupD, h1] <;> omega

/-- Looking up after `a.update(b)` adds the whole weight `b` carries on the
key. -/
theorem lookupD_counterUpdate {K : Type} [DecidableEq K] (a b : Counter K) (k : K) :
    lookupD (counterUpdate a b) k = lookupD a k + keyWeight b k := by
  induction b generalizing a with
  | nil => simp [counterUpdate, keyWeight]
  | cons p rest ih =>
    obtain ⟨k1, n⟩ := p
    have hstep : counterUpdate a ((k1, n) :: rest) = counterUpdate (addCount a k1 n) rest := rfl
    rw [hstep, ih, lookupD_addCount, keyWeight_cons]
    omega

/-- The fold underlying `aggFor`, evaluated through `lookupD`. -/
theorem lookupD_aggFold (counts : TriCounts) (agg : Counter Token) (w2 t : Token) :
    lookupD (List.foldl (fun a e => if e.1.2 = w2 then counterUpdate a e.2 else a) agg counts) t
      = lookupD agg t + ctxWeight counts w2 t := by
  induction counts generalizing agg with
  | nil => simp [ctxWeight]
  | cons e rest ih =>
    rw [List.foldl_cons, ih, ctxWeight_cons]
    by_cases h : e.1.2 = w2
    · simp only [if_pos h, lookupD_counterUpdate]
      omega
    · simp only [if_neg h]
      omega

/-- The backoff aggregate for `w2` assigns each token its total trigram
weight over contexts ending in `w2`. -/
theorem lookupD_aggFor (counts : TriCounts) (w2 t : Token) :
    lookupD (aggFor counts w2) t = ctxWeight counts w2 t := by
  have h := lookupD_aggFold counts [] w2 t
  simpa [aggFor, lookupD] using h

/-- A nested increment raises `ctxWeight` by one exactly on the matching
second context component and token. -/
theorem ctxWeight_incrNested (counts : TriCounts) (ctx : Token × Token) (w : Token)
    (u t : Token) :
    ctxWeight (incrNested counts ctx w) u t
      = ctxWeight counts u t + (if ctx.2 = u ∧ w = t then 1 else 0) := by
  induction counts with
  | nil =>
    rw [show incrNested [] ctx w = [(ctx, [(w, 1)])] from rfl]
    by_cases h1 : ctx.2 = u
    · by_cases h2 : w = t <;> simp [ctxWeight, keyWeight, h1, h2]
    · simp [ctxWeight, keyWeight, h1]
  | cons e rest ih =>
    obtain ⟨ctx0, ctr⟩ := e
    by_cases h0 : ctx0 = ctx
    · subst h0
      rw [show incrNested ((ctx0, ctr) :: rest) ctx0 w = (ctx0, incr ctr w) :: rest by
        simp [incrNested]]
      rw [ctxWeight_cons, ctxWeight_cons]
      by_cases h1 : ctx0.2 = u
      · simp only [if_pos h1, keyWeight_incr]
        by_cases h2 : w = t <;> simp [h1, h2] <;> omega
      · have hne : ¬ (ctx0.2 = u ∧ w = t) := fun hp => h1 hp.1
        simp only [if_neg h1, if_neg hne]
        omega
    · rw [show incrNested ((ctx0, ctr) :: rest) ctx w = (ctx0, ctr) :: incrNested rest ctx w by
        simp [incrNested, h0]]
      rw [ctxWeight_cons, ctxWeight_cons, ih]
      omega

/-- The stored trigram count of a context never exceeds the total weight of
the same token over all contexts sharing the second component. -/
theorem lookupTri_le_ctxWeight (counts : TriCounts) (w1 w2 t : Token) :
    lookupTri counts (w1, w2) t ≤ ctxWeight counts w2 t := by
  induction counts with
  | nil => simp [lookupTri, lookupCtx, ctxWeight]
  | cons e rest ih =>
    obtain ⟨ctx0, ctr⟩ := e
    rw [ctxWeight_cons]
    by_cases h0 : ctx0 = (w1, w2)
    · subst h0
      have hl : lookupTri (((w1, w2), ctr) :: rest) (w1, w2) t = lookupD ctr t := by
        simp [lookupTri, lookupCtx]
      rw [hl]
      have hkw := lookupD_le_keyWeight ctr t
      simp only [show ((w1, w2) : Token × Token).2 = w2 from rfl, if_pos rfl, if_true]
      omega
    · have hl : lookupTri ((ctx0, ctr) :: rest) (w1, w2) t = lookupTri rest (w1, w2) t := by
        simp [lookupTri, lookupCtx, h0]
      rw [hl]
      have hih := ih
      by_cases h1 : ctx0.2 = w2 <;> simp only [h1, if_pos, if_neg, if_true, if_false] <;> omega

/-- The trigram loop keeps the aggregate view of `counts` equal to the flat
`bigram_counts` table: both are incremented once per trigram, at the same
key. -/
theorem trigramStep_inv (l : List Token) :
    ∀ (c : TriCounts) (b : Counter (Token × Token)),
      (∀ u t, ctxWeight c u t = lookupD b (u, t)) →
      ∀ u t, ctxWeight (trigramStep l c b).1 u t = lookupD (trigramStep l c b).2 (u, t) := by
  induction l with
  | nil => intro c b h; simpa [trigramStep] using h
  | cons w1 rest ih =>
    intro c b h
    match rest with
    | [] => simpa [trigramStep] using h
    | [w2] => simpa [trigramStep] using h
    | w2 :: w3 :: rest3 =>
      have hstep : trigramStep (w1 :: w2 :: w3 :: rest3) c b
          = trigramStep (w2 :: w3 :: rest3) (incrNested c (w1, w2) w3) (incr b (w2, w3)) := rfl
      rw [hstep]
      apply ih
      intro u t
      rw [ctxWeight_incrNested, lookupD_incr, h u t]
      by_cases h1 : w2 = u ∧ w3 = t
      · obtain ⟨hu, ht⟩ := h1
        subst hu; subst ht
        simp
      · have h1a : ¬ (((w1, w2) : Token × Token).2 = u ∧ w3 = t) := h1
        have h3 : ¬ ((w2, w3) : Token × Token) = (u, t) := by
          intro he
          exact h1 ⟨congrArg Prod.fst he, congrArg Prod.snd he⟩
        simp only [if_neg h1a, if_neg h3]

/-- `processSentence` preserves the aggregate/bigram agreement. -/
theorem processSentence_inv (m : TrigramModel) (sent : List Token)
    (h : ∀ u t, ctxWeight m.counts u t = lookupD m.bigram_counts (u, t)) :
    ∀ u t, ctxWeight (processSentence m sent).counts u t
      = lookupD (processSentence m sent).bigram_counts (u, t) := by
  by_cases hs : sent = []
  · simpa [processSentence, hs] using h
  · intro u t
    simp only [processSentence, if_neg hs]
    exact trigramStep_inv (padSentence sent) m.counts m.bigram_counts h u t

/-- The sentence fold preserves the aggregate/bigram agreement. -/
theorem foldl_processSentence_inv (sentences : List (List Token)) :
    ∀ (m : TrigramModel),
      (∀ u t, ctxWeight m.counts u t = lookupD m.bigram_counts (u, t)) →
      ∀ u t, ctxWeight (List.foldl processSentence m sentences).counts u t
        = lookupD (List.foldl processSentence m sentences).bigram_counts (u, t) := by
  induction sentences with
  | nil => intro m h; simpa using h
  | cons s rest ih =>
    intro m h
    rw [List.foldl_cons]
    exact ih (processSentence m s) (processSentence_inv m s h)

/-- After `fit`, the aggregate view of the trigram table agrees with the
stored flat bigram table at every key. -/
theorem fit_inv (text : String) (m : TrigramModel) (u t : Token) :
    ctxWeight (fit text m).counts u t = lookupD (fit text m).bigram_counts (u, t) := by
  have hbase : ∀ u t, ctxWeight initModel.counts u t
      = lookupD initModel.bigram_counts (u, t) := by
    intro u t; simp [initModel, ctxWeight, lookupD]
  exact foldl_processSentence_inv (splitSentences (tokenize text)) initModel hbase u t

/-- The unigram fold over a padded sentence adds exactly the number of
non-start tokens to the total count. -/
theorem sumValues_uniFold (l : List Token) : ∀ (u0 : Counter Token),
    sumValues (List.foldl (fun u w => if w = SENT_START then u else incr u w) u0 l)
      = sumValues u0 + nonStartCount l := by
  induction l with
  | nil => intro u0; simp [nonStartCount]
  | cons w ws ih =>
    intro u0
    rw [List.foldl_cons,
      show nonStartCount (w :: ws) = (if w = SENT_START then 0 else 1) + nonStartCount ws from rfl]
    by_cases h : w = SENT_START
    · rw [if_pos h, if_pos h, ih]
      omega
    · rw [if_neg h, if_neg h, ih, sumValues_incr]
      omega

/-- The sentence fold adds, per non-empty sentence, the number of non-start
tokens of its padded form to the unigram total. -/
theorem sumValues_foldl_processSentence (sentences : List (List Token)) :
    ∀ (m : TrigramModel),
      sumValues (List.foldl processSentence m sentences).unigram_counts
        = sumValues m.unigram_counts
          + (sentences.map (fun s => if s = [] then 0 else nonStartCount (padSentence s))).sum := by
  induction sentences with
  | nil => intro m; simp
  | cons s rest ih =>
    intro m
    rw [List.foldl_cons, ih, List.map_cons, List.sum_cons]
    by_cases hs : s = []
    · simp [processSentence, hs]
    · have hu : (processSentence m s).unigram_counts
          = List.foldl (fun u w => if w = SENT_START then u else incr u w)
              m.unigram_counts (padSentence s) := by
        simp [processSentence, hs]
      rw [hu, sumValues_uniFold, if_neg hs]
      omega

/-- A fuel induction bounding both the produced tokens and the sampling
steps of the generation loop. -/
theorem generateAux_bound (m : TrigramModel) (g : Nat → Nat) :
    ∀ (fuel : Nat) (ctx : Token × Token) (i : Nat) (toks : List Token) (steps : Nat),
      generateAux m g ctx i fuel = some (toks, steps) →
      toks.length ≤ fuel ∧ steps ≤ fuel := by
  intro fuel
  induction fuel with
  | zero =>
    intro ctx i toks steps h
    simp only [generateAux, Option.some.injEq, Prod.mk.injEq] at h
    obtain ⟨h1, h2⟩ := h
    simp [← h1, ← h2]
  | succ fuel ih =>
    intro ctx i toks steps h
    obtain ⟨w1, w2⟩ := ctx
    cases hb : backoffSample m (w1, w2) (g i) with
    | none =>
      simp only [generateAux, hb] at h
      exact Option.noConfusion h
    | some w =>
      simp only [generateAux, hb] at h
      by_cases hw : w = SENT_END
      · rw [if_pos hw] at h
        simp only [Option.some.injEq, Prod.mk.injEq] at h
        obtain ⟨h1, h2⟩ := h
        subst h1; subst h2
        simp
      · rw [if_neg hw] at h
        cases hr : generateAux m g (w2, w) (i + 1) fuel with
        | none => rw [hr] at h; simp at h
        | some p =>
          obtain ⟨toks0, steps0⟩ := p
          rw [hr] at h
          simp only [Option.some.injEq, Prod.mk.injEq] at h
          obtain ⟨h1, h2⟩ := h
          have hbd := ih (w2, w) (i + 1) toks0 steps0 hr
          subst h1; subst h2
          simp only [List.length_cons]
          omega

/-- C1: for every model and context, if the trigram table holds a non-empty
counter for the context then one sampling step draws from exactly that
counter, for arbitrary contents of the bigram and unigram tables (so neither
is consulted); the bigram-level aggregate is sampled only when the trigram
guard fails, and the unigram table only when the aggregate is empty as
well. -/
theorem backoff_trigram_priority :
    (∀ (counts : TriCounts) (b : Counter (Token × Token)) (u : Counter Token)
        (context : Token × Token) (ctr : Counter Token) (r : Nat),
        lookupCtx counts context = some ctr → 0 < ctr.length →
        backoffSample (TrigramModel.mk counts b u) context r = sampleFromCounter ctr r)
    ∧ (∀ (m : TrigramModel) (context : Token × Token) (r : Nat),
        (lookupCtx m.counts context = none ∨ lookupCtx m.counts context = some []) →
        aggFor m.counts context.2 ≠ [] →
        backoffSample m context r = sampleFromCounter (aggFor m.counts context.2) r)
    ∧ (∀ (m : TrigramModel) (context : Token × Token) (r : Nat),
        (lookupCtx m.counts context = none ∨ lookupCtx m.counts context = some []) →
        aggFor m.counts context.2 = [] → m.unigram_counts ≠ [] →
        backoffSample m context r = sampleFromCounter m.unigram_counts r) := by
  refine ⟨?_, ?_, ?_⟩
  · intro counts b u context ctr r hctx hlen
    simp [backoffSample, hctx, hlen]
  · intro m context r hemp hagg
    rcases hemp with h | h
    · simp [backoffSample, h, backoffRest, hagg]
    · simp [backoffSample, h, backoffRest, hagg]
  · intro m context r hemp hagg huni
    rcases hemp with h | h
    · simp [backoffSample, h, backoffRest, hagg, huni]
    · simp [backoffSample, h, backoffRest, hagg, huni]

/-- Witness for C1 on the model trained on `"hi."`: the context
`(<s>, <s>)` has the trigram counter `{hi: 1}`, and the sampler draws from
exactly it. -/
theorem backoff_trigram_priority_check :
    backoffSample
        (TrigramModel.mk (fit ("hi.") initModel).counts
          (fit ("hi.") initModel).bigram_counts (fit ("hi.") initModel).unigram_counts)
        (SENT_START, SENT_START) 0
      = sampleFromCounter [(("hi" : Token), 1)] 0 :=
  backoff_trigram_priority.1 (fit ("hi.") initModel).counts
    (fit ("hi.") initModel).bigram_counts (fit ("hi.") initModel).unigram_counts
    (SENT_START, SENT_START) [(("hi" : Token), 1)] 0 (by decide) (by decide)

/-- C2: after `fit(text)` the unigram counts total exactly the number of
tokens other than the start marker over all padded non-empty sentences (the
end marker is counted, start markers are not; empty sentences are skipped
and contribute nothing). -/
theorem unigram_count_conservation (text : String) (m : TrigramModel) :
    sumValues (fit text m).unigram_counts
      = ((splitSentences (tokenize text)).map
          (fun s => if s = [] then 0 else nonStartCount (padSentence s))).sum := by
  have h := sumValues_foldl_processSentence (splitSentences (tokenize text)) initModel
  simpa [fit, initModel, sumValues] using h

/-- C3 (claim refuted): calling the sampling primitive directly on the empty
counter does not return the end marker; the Python code raises `ValueError`
(unpacking `zip()` of no items), modelled as `none`. -/
theorem sample_empty_not_end :
    ¬ (sampleFromCounter ([] : Counter Token) 0 = some SENT_END) := by
  decide

/-- C3 amended: the sampling primitive applied directly to an empty counter
fails (an exception, modelled as `none`) instead of returning the end
marker. -/
theorem sample_empty_fails (r : Nat) :
    sampleFromCounter ([] : Counter Token) r = none := rfl

/-- C4: `fit` clears all tables before counting, so fitting the same text
twice leaves the model (all three tables) identical to a single fit. -/
theorem fit_idempotent (text : String) (m : TrigramModel) :
    fit text (fit text m) = fit text m := rfl

/-- C5: any `max_length <= 0` makes the generation loop run zero times, so
`generate` returns the empty string and does not fail. -/
theorem generate_nonpos_empty (m : TrigramModel) (g : Nat → Nat) (n : Int)
    (h : n ≤ 0) : generate m g n = some ("") := by
  have h0 : n.toNat = 0 := by omega
  simp [generate, h0, generateAux]

/-- Witness for C5 at `max_length = -1` on the fresh model. -/
theorem generate_nonpos_empty_check : generate initModel (fun _ => 0) (-1) = some ("") :=
  generate_nonpos_empty initModel (fun _ => 0) (-1) (by decide)

/-- C6: with all three tables empty (never trained, or trained on a corpus
with zero sentences), the backoff chain falls through to the deterministic
end-marker return on the first step and `generate` yields the empty string
without failing. -/
theorem generate_untrained_empty (m : TrigramModel) (g : Nat → Nat) (n : Int)
    (hc : m.counts = []) (_hb : m.bigram_counts = []) (hu : m.unigram_counts = []) :
    generate m g n = some ("") := by
  have hback : ∀ ctx r, backoffSample m ctx r = some SENT_END := by
    intro ctx r
    simp [backoffSample, hc, lookupCtx, backoffRest, aggFor, hu]
  have haux : ∀ fuel i ctx, generateAux m g ctx i fuel = some ([], 0)
      ∨ generateAux m g ctx i fuel = some ([], 1) := by
    intro fuel i ctx
    match fuel with
    | 0 => exact Or.inl rfl
    | fuel + 1 =>
      obtain ⟨w1, w2⟩ := ctx
      right
      simp [generateAux, hback]
  rcases haux n.toNat 0 (SENT_START, SENT_START) with h | h <;> simp [generate, h]

/-- Witness for C6: fitting the empty corpus leaves all tables empty and
`generate` with the default bound returns the empty string. -/
theorem generate_untrained_empty_check :
    generate (fit ("") initModel) (fun _ => 0) 50 = some ("") :=
  generate_untrained_empty (fit ("") initModel) (fun _ => 0) 50
    (by decide) (by decide) (by decide)

/-- C7: after `fit`, every trigram count for context `(w1, w2)` and next
token `t` is at most the bigram count stored under `(w2, t)`; the two tables
are incremented in lockstep. -/
theorem trigram_le_bigram (text : String) (m : TrigramModel) (w1 w2 t : Token) :
    lookupTri (fit text m).counts (w1, w2) t
      ≤ lookupD (fit text m).bigram_counts (w2, t) := by
  have h1 := lookupTri_le_ctxWeight (fit text m).counts w1 w2 t
  have h2 := fit_inv text m w2 t
  omega

/-- C8: the generation loop with bound `N` performs at most `N` sampling
steps and emits at most `N` word tokens (these tokens are exactly what
`generate` joins into the returned string). -/
theorem generate_step_bound (m : TrigramModel) (g : Nat → Nat) (N : Nat)
    (toks : List Token) (steps : Nat)
    (h : generateAux m g (SENT_START, SENT_START) 0 N = some (toks, steps)) :
    toks.length ≤ N ∧ steps ≤ N :=
  generateAux_bound m g N (SENT_START, SENT_START) 0 toks steps h

/-- Witness for C8 on the model trained on `"hi."` with bound 5: one token
is produced in two sampling steps, within the bound. -/
theorem generate_step_bound_check :
    generateAux (fit ("hi.") initModel) (fun _ => 0) (SENT_START, SENT_START) 0 5
        = some ([("hi" : Token)], 2)
    ∧ ([("hi" : Token)].length ≤ 5 ∧ 2 ≤ 5) :=
  ⟨by decide,
    generate_step_bound (fit ("hi.") initModel) (fun _ => 0) 5 [("hi" : Token)] 2 (by decide)⟩

/-- C9: after `fit`, the counter aggregated at the bigram backoff level for
`w2` assigns each token `t` exactly the count stored in `bigram_counts`
under `(w2, t)`; sampling from the aggregate is therefore
distribution-identical to sampling from the stored bigram table (which
generation itself never reads). -/
theorem agg_eq_bigram (text : String) (m : TrigramModel) (w2 t : Token) :
    lookupD (aggFor (fit text m).counts w2) t
      = lookupD (fit text m).bigram_counts (w2, t) := by
  rw [lookupD_aggFor]
  exact fit_inv text m w2 t

/-- C10: every sampling step either returns the deterministic end marker or
applies the sampling primitive to a counter that is provably non-empty: each
backoff level is guarded by a non-emptiness check, so generation never
reaches the unguarded primitive with an empty counter, whatever the model
state. -/
theorem backoff_no_empty_sample (m : TrigramModel) (context : Token × Token) (r : Nat) :
    (∃ c, c ≠ [] ∧ backoffSample m context r = sampleFromCounter c r)
    ∨ backoffSample m context r = some SENT_END := by
  have hrest : (∃ c, c ≠ [] ∧ backoffRest m context r = sampleFromCounter c r)
      ∨ backoffRest m context r = some SENT_END := by
    by_cases h1 : aggFor m.counts context.2 ≠ []
    · exact Or.inl ⟨aggFor m.counts context.2, h1, by simp [backoffRest, h1]⟩
    · by_cases h2 : m.unigram_counts ≠ []
      · exact Or.inl ⟨m.unigram_counts, h2, by simp [backoffRest, h1, h2]⟩
      · exact Or.inr (by simp [backoffRest, h1, h2])
  cases hctx : lookupCtx m.counts context with
  | none =>
    have heq : backoffSample m context r = backoffRest m context r := by
      simp [backoffSample, hctx]
    rw [heq]
    exact hrest
  | some ctr =>
    by_cases hlen : 0 < ctr.length
    · have heq : backoffSample m context r = sampleFromCounter ctr r := by
        simp [backoffSample, hctx, hlen]
      refine Or.inl ⟨ctr, ?_, heq⟩
      intro hc
      rw [hc] at hlen
      simp at hlen
    · have heq : backoffSample m context r = backoffRest m context r := by
        simp [backoffSample, hctx, hlen]
      rw [heq]
      exact hrest

end NGram
